import Mathlib

/-!
# The native (local filesystem) storage driver

A shallow embedding of `drivers/native_driver.go`.

* Paths are Go strings; `filepath.Join`, `filepath.Clean` and `filepath.Ext`
  are modelled as the Go standard library documents them for Unix.
* The operating system is a finite tree of regular files, directories and
  symbolic links.  It resolves a path as it is given, element by element, each
  in the directory reached so far; `os.Stat` follows symbolic links,
  `ioutil.ReadDir` reports every directory entry as `Lstat` would.
* The parts of the repository that the driver calls but that live in other
  packages (`conf.FOLDER`, `utils.GetFileType`, `model.SortFiles`,
  `model.SaveAccount`) are parameters, bundled in `Env`.
-/

namespace Alist

/-! ## path/filepath on Unix -/

/-- One path element, as a list of characters. -/
abbrev Seg := List Char

/-- The parent-directory element. -/
def dotdot : Seg := ['.', '.']

/-- Cut a path at every separator, as `strings.Split(path, "/")` does. -/
def splitSlash : List Char → List Seg
  | [] => [[]]
  | c :: cs =>
    if c = '/' then [] :: splitSlash cs
    else
      match splitSlash cs with
      | [] => [[c]]
      | s :: r => (c :: s) :: r

/-- One round of the loop of `filepath.Clean`, on the elements written so far
(the last written element first).  An empty element and `.` are skipped; `..`
removes the last written element when there is one to backtrack over, is
written when the path is not rooted and nothing can be removed, and is dropped
at the top of a rooted path; any other element is written. -/
def cleanStep (rooted : Bool) (st : List Seg) (seg : Seg) : List Seg :=
  if seg = [] ∨ seg = ['.'] then st
  else if seg = dotdot then
    match st with
    | [] => if rooted then [] else [dotdot]
    | top :: rest => if top = dotdot then dotdot :: st else rest
  else seg :: st

/-- The elements `filepath.Clean` keeps, in path order. -/
def cleanSegs (rooted : Bool) (segs : List Seg) : List Seg :=
  (segs.foldl (cleanStep rooted) []).reverse

/-- Whether the path starts with a separator. -/
def isRooted (path : String) : Bool :=
  match path.data with
  | c :: _ => c = '/'
  | [] => false

/-- The elements of the cleaned path. -/
def pathSegs (path : String) : List Seg :=
  cleanSegs (isRooted path) (splitSlash path.data)

/-- Elements separated by single slashes. -/
def joinSegs : List Seg → List Char
  | [] => []
  | [s] => s
  | s :: r => s ++ '/' :: joinSegs r

/-- Model of `filepath.Clean`: the shortest path equivalent to `path` by purely
lexical processing; the empty path becomes `.`. -/
def Clean (path : String) : String :=
  if path = "" then "."
  else if isRooted path then ⟨'/' :: joinSegs (pathSegs path)⟩
  else if pathSegs path = [] then "."
  else ⟨joinSegs (pathSegs path)⟩

/-- Model of `filepath.Join`: leading empty elements are ignored, the remaining
ones are joined with the separator and the result is cleaned; with no non-empty
element the result is the empty string. -/
def Join : List String → String
  | [] => ""
  | e :: rest => if e = "" then Join rest else Clean ("/".intercalate (e :: rest))

/-- The suffix of an element that begins at its final dot, if it has a dot. -/
def finalDot : List Char → Option (List Char)
  | [] => none
  | c :: cs =>
    match finalDot cs with
    | some e => some e
    | none => if c = '.' then some (c :: cs) else none

/-- Model of `filepath.Ext`: the suffix beginning at the final dot of the final
element of the path, empty if there is no dot. -/
def Ext (path : String) : String :=
  match (splitSlash path.data).getLast? with
  | some last =>
    match finalDot last with
    | some e => ⟨e⟩
    | none => ""
  | none => ""

/-- Remove every trailing separator. -/
def trimSlashes : List Char → List Char
  | [] => []
  | c :: cs =>
    match trimSlashes cs with
    | [] => if c = '/' then [] else [c]
    | d :: t => c :: d :: t

/-- Model of `basename` of package `os`, which gives the `Name()` of the
`FileInfo` of `os.Stat`: trailing separators are removed, but never the first
character, and what follows the last remaining separator is the name. -/
def basename (name : String) : String :=
  match name.data with
  | [] => ""
  | c :: cs =>
    if c :: trimSlashes cs = ['/'] then "/"
    else ⟨((splitSlash (c :: trimSlashes cs)).getLast?).getD []⟩

/-- Model of `strings.HasPrefix`. -/
def HasPrefix (s : String) (pre : String) : Bool :=
  pre.data.isPrefixOf s.data

/-! ## The operating system -/

/-- The errors of the system calls the driver makes. -/
inductive Errno where
  | ENOENT
  | ENOTDIR
  deriving DecidableEq

/-- What `os.FileInfo` gives: name, length in bytes (system-dependent for
anything but a regular file), modification time, `IsDir()`, and whether the mode
has `os.ModeSymlink` (the driver does not read the last one). -/
structure FileInfo where
  Name : String
  Size : Int
  ModTime : Int
  IsDir : Bool
  Symlink : Bool
  deriving DecidableEq

/-- A node of the filesystem tree.  A directory is an association list from
names to nodes.  A symbolic link carries the place its target resolves to (the
names on the way from `/`, none of them a symbolic link), or `none` when the
link dangles. -/
inductive Node where
  | file (size : Int) (mtime : Int)
  | dir (size : Int) (mtime : Int) (entries : List (String × Node))
  | symlink (size : Int) (mtime : Int) (target : Option (List String))

/-- The size recorded in the node itself. -/
def Node.size : Node → Int
  | .file s _ => s
  | .dir s _ _ => s
  | .symlink s _ _ => s

/-- The modification time recorded in the node itself. -/
def Node.mtime : Node → Int
  | .file _ t => t
  | .dir _ t _ => t
  | .symlink _ t _ => t

/-- Whether the node itself is a directory (a symbolic link is not). -/
def Node.isDir : Node → Bool
  | .dir _ _ _ => true
  | _ => false

/-- Whether the node itself is a symbolic link. -/
def Node.isSymlink : Node → Bool
  | .symlink _ _ _ => true
  | _ => false

/-- The node at a place: the names are looked up one after the other, each in
a directory; no symbolic link is followed. -/
def nodeAt : Node → List String → Option Node
  | n, [] => some n
  | n, s :: rest =>
    match n with
    | .dir _ _ es =>
      match es.lookup s with
      | some c => nodeAt c rest
      | none => none
    | _ => none

/-- A name a directory entry can have. -/
def legalName (name : String) : Bool :=
  name ≠ "" && name ≠ "." && name ≠ ".." && !name.data.contains '/'

/-- The entries of an association list that a lookup by name can reach: of
several entries with one name, the first. -/
def firstByName (seen : List String) : List (String × Node) → List (String × Node)
  | [] => []
  | (k, v) :: r =>
    if k ∈ seen then firstByName seen r else (k, v) :: firstByName (k :: seen) r

/-- The entries a directory holds. -/
def dirEntries (es : List (String × Node)) : List (String × Node) :=
  firstByName [] (es.filter fun e => legalName e.1)

/-- The `FileInfo` of a directory entry as `Lstat` gives it: a symbolic link is
described itself, not its target. -/
def lstatInfo (e : String × Node) : FileInfo :=
  { Name := e.1, Size := e.2.size, ModTime := e.2.mtime, IsDir := e.2.isDir,
    Symlink := e.2.isSymlink }

/-- A filesystem: the tree under `/` and the place of the working directory of
the process. -/
structure FS where
  root : Node
  cwd : List String

/-- One element of a path, resolved by the system in the place reached so far,
which has to be a directory.  An empty element and `.` stay; `..` goes to the
parent directory (`/` is its own parent); a name is looked up in the directory,
and a symbolic link found under it is followed to the place it resolves to.
Nothing is cleaned beforehand: an element that is missing makes the whole path
fail, also when `..` follows it. -/
def FS.step (fs : FS) (pos : List String) (comp : Seg) : Except Errno (List String) :=
  match nodeAt fs.root pos with
  | none => .error .ENOENT
  | some (.dir _ _ es) =>
    if comp = [] ∨ comp = ['.'] then .ok pos
    else if comp = dotdot then .ok pos.dropLast
    else
      match es.lookup ⟨comp⟩ with
      | none => .error .ENOENT
      | some (.symlink _ _ none) => .error .ENOENT
      | some (.symlink _ _ (some t)) =>
        match nodeAt fs.root t with
        | some (.file _ _) => .ok t
        | some (.dir _ _ _) => .ok t
        | _ => .error .ENOENT
      | some _ => .ok (pos ++ [⟨comp⟩])
  | some _ => .error .ENOTDIR

/-- The elements of a path resolved one after the other. -/
def FS.walk (fs : FS) : List String → List Seg → Except Errno (List String)
  | pos, [] => .ok pos
  | pos, c :: rest =>
    match fs.step pos c with
    | .ok p => fs.walk p rest
    | .error e => .error e

/-- The place a path names for the system, symbolic links followed: the empty
path names nothing, a rooted path starts at `/`, any other at the working
directory. -/
def FS.namei (fs : FS) (name : String) : Except Errno (List String) :=
  if name = "" then .error .ENOENT
  else fs.walk (if isRooted name then [] else fs.cwd) (splitSlash name.data)

/-- The node a path names for the system, symbolic links followed. -/
def FS.resolve (fs : FS) (name : String) : Except Errno Node :=
  match fs.namei name with
  | .ok pos =>
    match nodeAt fs.root pos with
    | some n => .ok n
    | none => .error .ENOENT
  | .error e => .error e

/-- Model of `os.Stat`: the `FileInfo` of the file the path names, symbolic
links followed; the name is the base name of the path given. -/
def osStat (fs : FS) (name : String) : Except Errno FileInfo :=
  match fs.resolve name with
  | .ok n =>
    .ok { Name := basename name, Size := n.size, ModTime := n.mtime, IsDir := n.isDir,
          Symlink := n.isSymlink }
  | .error e => .error e

/-- Model of `ioutil.ReadDir`: the entries of the directory the path names, each
as `Lstat` would return it.  The order of the entries in the tree stands for the
order by file name in which they are returned. -/
def ReadDir (fs : FS) (dirname : String) : Except Errno (List FileInfo) :=
  match fs.resolve dirname with
  | .ok (.dir _ _ es) => .ok ((dirEntries es).map lstatInfo)
  | .ok _ => .error .ENOTDIR
  | .error e => .error e

/-! ## The rest of the repository, as far as the driver uses it -/

deriving instance DecidableEq for Except

/-- The errors a driver operation returns: the two sentinels of the `drivers`
package, an error of a system call, an error made by `fmt.Errorf`, and an error
of the account store. -/
inductive DriverError where
  | ErrPathNotFound
  | ErrNotSupport
  | os (e : Errno)
  | errorf (msg : String)
  | store (msg : String)
  deriving DecidableEq

/-- The fields of `model.Account` the driver reads or writes. -/
structure Account where
  Name : String
  RootFolder : String
  Status : String
  Proxy : Bool
  OrderBy : String
  OrderDirection : String
  deriving DecidableEq

/-- The fields of `model.File` the driver fills in; `UpdatedAt` is a pointer. -/
structure File where
  Name : String
  Size : Int
  Type_ : Int
  UpdatedAt : Option Int
  Driver : String
  deriving DecidableEq

/-- The upload payload: target folder and name (the byte stream is left out). -/
structure FileStream where
  Path : String
  Name : String
  deriving DecidableEq

/-- What the driver takes from the packages `conf`, `utils` and `model`, whose
source is not part of the driver file: the constant `conf.FOLDER`, the
classification `utils.GetFileType` of an extension, `model.SortFiles` (which
sorts the slice in place; here it returns the sorted slice) and
`model.SaveAccount` (here: the error it returns, if any). -/
structure Env where
  FOLDER : Int
  GetFileType : String → Int
  SortFiles : List File → Account → List File
  SaveAccount : Account → Option DriverError

/-- Modelled from the spec: `utils.Exists` is not part of the driver file; the
spec has it decide whether the resolved path exists, which is whether `os.Stat`
finds it. -/
def utilsExists (fs : FS) (name : String) : Bool :=
  match osStat fs name with
  | .ok _ => true
  | .error _ => false

/-- Modelled from the spec: `model.File.IsDir` is not part of the driver file; a
File is a folder when its type is Folder. -/
def File.IsDir (env : Env) (f : File) : Bool :=
  f.Type_ = env.FOLDER

/-! ## The driver -/

namespace Native

/-- The name in `Native.Config()`. -/
def ConfigName : String := "Native"

/-- What `Save` leaves behind: the account as the caller sees it afterwards (it
is passed by pointer), the accounts handed to `model.SaveAccount` in order, and
the error returned. -/
structure SaveOutcome where
  account : Account
  saved : List Account
  err : Option DriverError
  deriving DecidableEq

/-- `Native.Save`. -/
def Save (env : Env) (fs : FS) (account : Account) (_old : Account) : SaveOutcome :=
  if !utilsExists fs account.RootFolder then
    let account := { account with Status := "[" ++ account.RootFolder ++ "] not exist" }
    let _ := env.SaveAccount account
    { account := account, saved := [account],
      err := some (.errorf ("[" ++ account.RootFolder ++ "] not exist")) }
  else
    let account := { account with Status := "work", Proxy := true }
    match env.SaveAccount account with
    | some err => { account := account, saved := [account], err := some err }
    | none => { account := account, saved := [account], err := none }

/-- `Native.File`. -/
def File (env : Env) (fs : FS) (path : String) (account : Account) :
    Except DriverError Alist.File :=
  let fullPath := Join [account.RootFolder, path]
  if !utilsExists fs fullPath then .error .ErrPathNotFound
  else
    match osStat fs fullPath with
    | .error err => .error (.os err)
    | .ok f =>
      let file : Alist.File :=
        { Name := f.Name, Size := f.Size, Type_ := 0, UpdatedAt := some f.ModTime,
          Driver := ConfigName }
      if f.IsDir then .ok { file with Type_ := env.FOLDER }
      else .ok { file with Type_ := env.GetFileType (Ext f.Name) }

/-- The body of the loop of `Native.Files`: a hidden entry is skipped, any
other is appended. -/
def filesStep (env : Env) (files : List Alist.File) (f : FileInfo) : List Alist.File :=
  if HasPrefix f.Name "." then files
  else
    let file : Alist.File :=
      { Name := f.Name, Size := f.Size, Type_ := 0, UpdatedAt := some f.ModTime,
        Driver := ConfigName }
    if f.IsDir then files ++ [{ file with Type_ := env.FOLDER }]
    else files ++ [{ file with Type_ := env.GetFileType (Ext f.Name) }]

/-- `Native.Files`. -/
def Files (env : Env) (fs : FS) (path : String) (account : Account) :
    Except DriverError (List Alist.File) :=
  let fullPath := Join [account.RootFolder, path]
  if !utilsExists fs fullPath then .error .ErrPathNotFound
  else
    match ReadDir fs fullPath with
    | .error err => .error (.os err)
    | .ok rawFiles => .ok (env.SortFiles (rawFiles.foldl (filesStep env) []) account)

/-- `Native.Link`: the pair of the returned string and error. -/
def Link (fs : FS) (path : String) (account : Account) : String × Option DriverError :=
  let fullPath := Join [account.RootFolder, path]
  match osStat fs fullPath with
  | .error err => ("", some (.os err))
  | .ok s =>
    if s.IsDir then ("", some (.errorf "can't down folder"))
    else (fullPath, none)

/-- `Native.Path`: the triple of the returned File pointer, slice (`none` for
`nil`) and error. -/
def Path (env : Env) (fs : FS) (path : String) (account : Account) :
    Option Alist.File × Option (List Alist.File) × Option DriverError :=
  match File env fs path account with
  | .error err => (none, none, some err)
  | .ok file =>
    if file.Type_ ≠ env.FOLDER then (some file, none, none)
    else
      match Files env fs path account with
      | .error err => (none, none, some err)
      | .ok files => (none, some (env.SortFiles files account), none)

/-- The call a mutating operation ends in; its outcome is the outcome of the
operation. -/
inductive Call where
  | MkdirAll (path : String)
  | Rename (oldpath : String) (newpath : String)
  | CopyDir (src : String) (dst : String)
  | CopyFile (src : String) (dst : String)
  | RemoveAll (path : String)
  | Remove (path : String)
  deriving DecidableEq

/-- `Native.MakeDir`. -/
def MakeDir (path : String) (account : Account) : Call :=
  let fullPath := Join [account.RootFolder, path]
  .MkdirAll fullPath

/-- `Native.Move`. -/
def Move (src : String) (dst : String) (account : Account) : Call :=
  let fullSrc := Join [account.RootFolder, src]
  let fullDst := Join [account.RootFolder, dst]
  .Rename fullSrc fullDst

/-- `Native.Copy`: the error it returns itself, or the copying call it ends in. -/
def Copy (env : Env) (fs : FS) (src : String) (dst : String) (account : Account) :
    Except DriverError Call :=
  let fullSrc := Join [account.RootFolder, src]
  let fullDst := Join [account.RootFolder, dst]
  match File env fs src account with
  | .error err => .error err
  | .ok srcFile =>
    let copy : Except DriverError Call :=
      if srcFile.IsDir env then .ok (.CopyDir fullSrc fullDst)
      else .ok (.CopyFile fullSrc fullDst)
    match File env fs dst account with
    | .ok dstFile => if !dstFile.IsDir env then .error .ErrNotSupport else copy
    | .error _ => copy

/-- `Native.Delete`: the error it returns itself, or the removing call it ends in. -/
def Delete (env : Env) (fs : FS) (path : String) (account : Account) :
    Except DriverError Call :=
  let fullPath := Join [account.RootFolder, path]
  match File env fs path account with
  | .error err => .error err
  | .ok file =>
    if file.IsDir env then .ok (.RemoveAll fullPath)
    else .ok (.Remove fullPath)

/-- The path `Native.Upload` creates and writes. -/
def UploadPath (file : FileStream) (account : Account) : String :=
  Join [account.RootFolder, file.Path, file.Name]

/-- The File that `Native.File` and the loop of `Native.Files` both build from
a `FileInfo`. -/
def toFile (env : Env) (f : FileInfo) : Alist.File :=
  { Name := f.Name, Size := f.Size,
    Type_ := if f.IsDir then env.FOLDER else env.GetFileType (Ext f.Name),
    UpdatedAt := some f.ModTime, Driver := ConfigName }

end Native

/-! ## Confinement to the root -/

/-- Whether the `..` elements of a path never climb above the point the path
starts from (a path without `..` elements never does). -/
def confined (path : String) : Bool :=
  !(cleanSegs false (splitSlash path.data)).contains dotdot

/-- Whether the cleaned path `full` is `root` itself or lies below it: it is
rooted as `root` is, its elements start with those of `root`, and none of the
further ones is `..`. -/
def underRoot (root : String) (full : String) : Bool :=
  (isRooted full == isRooted root)
    && (pathSegs root).isPrefixOf (pathSegs full)
    && !((pathSegs full).drop (pathSegs root).length).contains dotdot

/-- The shape of the elements `filepath.Clean` has written (the last written
first): no element is empty or `.`, none holds a separator, and `..` stands
only at the front of a path that is not rooted. -/
def StackNF (rooted : Bool) : List Seg → Prop
  | [] => True
  | x :: st =>
    x ≠ [] ∧ x ≠ ['.'] ∧ '/' ∉ x ∧ (x = dotdot → rooted = false ∧ ∀ y ∈ st, y = dotdot) ∧
      StackNF rooted st

/-! ## A sample installation -/

/-- A sample environment: `conf.FOLDER` is 1, text files are classified 5,
everything else 0; `SortFiles` sorts by name with insertion sort; the store
accepts every account. -/
def sampleEnv : Env :=
  { FOLDER := 1
    GetFileType := fun ext => if ext = ".txt" then 5 else 0
    SortFiles := fun files _ => files.insertionSort fun a b => a.Name.data ≤ b.Name.data
    SaveAccount := fun _ => none }

/-- The sample environment with a store that refuses every account. -/
def refusingEnv : Env :=
  { sampleEnv with SaveAccount := fun _ => some (.store "database is closed") }

/-- A sample tree: `/data` holds `a.txt` (10 bytes), a hidden file, the folder
`b` with `c.txt` (5 bytes), a dangling symbolic link `dead`, a symbolic link
`dl` to the folder `b` and a symbolic link `ln` to `a.txt`; `/etc/passwd` lies
outside `/data`. -/
def sampleFS : FS :=
  { root :=
      .dir 4096 1
        [("data", .dir 4096 2
            [(".hidden", .file 1 1),
             ("a.txt", .file 10 3),
             ("b", .dir 4096 4 [("c.txt", .file 5 5)]),
             ("dead", .symlink 4 7 none),
             ("dl", .symlink 1 8 (some ["data", "b"])),
             ("ln", .symlink 5 6 (some ["data", "a.txt"]))]),
         ("etc", .dir 4096 1 [("passwd", .file 99 9)])]
    cwd := [] }

/-- An account rooted at `/data`. -/
def sampleAccount : Account :=
  { Name := "local", RootFolder := "/data", Status := "", Proxy := false,
    OrderBy := "name", OrderDirection := "ASC" }

/-- The listing of `/data` under the sample environment. -/
def sampleListing : List File :=
  [{ Name := "a.txt", Size := 10, Type_ := 5, UpdatedAt := some 3, Driver := "Native" },
   { Name := "b", Size := 4096, Type_ := 1, UpdatedAt := some 4, Driver := "Native" },
   { Name := "dead", Size := 4, Type_ := 0, UpdatedAt := some 7, Driver := "Native" },
   { Name := "dl", Size := 1, Type_ := 0, UpdatedAt := some 8, Driver := "Native" },
   { Name := "ln", Size := 5, Type_ := 0, UpdatedAt := some 6, Driver := "Native" }]

/-- An account whose root does not exist. -/
def lostAccount : Account :=
  { Name := "lost", RootFolder := "/nowhere", Status := "", Proxy := false,
    OrderBy := "", OrderDirection := "" }

/-! ## System calls: basic facts -/

theorem osStat_ok_iff (fs : FS) (name : String) (s : FileInfo) :
    osStat fs name = .ok s ↔
      ∃ n, fs.resolve name = .ok n ∧
        s = { Name := basename name, Size := n.size, ModTime := n.mtime, IsDir := n.isDir,
              Symlink := n.isSymlink } := by
  unfold osStat
  cases hw : fs.resolve name with
  | error e => simp
  | ok n =>
    simp only [Except.ok.injEq, exists_eq_left']
    exact eq_comm

theorem resolve_ok_ne (fs : FS) (name : String) (n : Node) (h : fs.resolve name = .ok n) :
    name ≠ "" := by
  intro e
  subst e
  simp [FS.resolve, FS.namei] at h

theorem utilsExists_eq_true (fs : FS) (name : String) :
    utilsExists fs name = true ↔ ∃ s, osStat fs name = .ok s := by
  unfold utilsExists
  cases osStat fs name <;> simp

theorem utilsExists_eq_false (fs : FS) (name : String) :
    utilsExists fs name = false ↔ ∃ e, osStat fs name = .error e := by
  unfold utilsExists
  cases osStat fs name <;> simp

theorem ReadDir_of_not_dir (fs : FS) (name : String) (s : FileInfo)
    (h : osStat fs name = .ok s) (hd : s.IsDir = false) :
    ReadDir fs name = .error .ENOTDIR := by
  obtain ⟨n, hw, rfl⟩ := (osStat_ok_iff fs name s).1 h
  unfold ReadDir
  simp only [hw]
  cases n <;> simp_all [Node.isDir]

theorem ReadDir_of_dir (fs : FS) (name : String) (s : FileInfo)
    (h : osStat fs name = .ok s) (hd : s.IsDir = true) :
    ∃ sz mt es, fs.resolve name = .ok (.dir sz mt es) ∧
      ReadDir fs name = .ok ((dirEntries es).map lstatInfo) := by
  obtain ⟨n, hw, rfl⟩ := (osStat_ok_iff fs name s).1 h
  cases n with
  | dir sz mt es =>
    refine ⟨sz, mt, es, hw, ?_⟩
    unfold ReadDir
    simp only [hw]
  | file sz mt => simp [Node.isDir] at hd
  | symlink sz mt t => simp [Node.isDir] at hd

theorem ReadDir_ok_iff (fs : FS) (name : String) (raw : List FileInfo) :
    ReadDir fs name = .ok raw ↔
      ∃ sz mt es, fs.resolve name = .ok (.dir sz mt es) ∧
        raw = (dirEntries es).map lstatInfo := by
  unfold ReadDir
  cases hw : fs.resolve name with
  | error e => simp
  | ok n =>
    cases n with
    | file a b => simp
    | symlink a b t => simp
    | dir a b es =>
      simp only [Except.ok.injEq, Node.dir.injEq]
      constructor
      · intro h
        exact ⟨a, b, es, ⟨rfl, rfl, rfl⟩, h.symm⟩
      · rintro ⟨sz, mt, es2, ⟨-, -, rfl⟩, h⟩
        exact h.symm

/-! ## DirectLink -/

/-- C10: `Native.Link` returns the empty string together with an error when the
resolved path cannot be stat'ed or names a folder, and returns exactly
`filepath.Join(account.RootFolder, path)` with no error when the resolved path
names an existing non-folder. -/
theorem Native.Link_folder_or_file (fs : FS) (path : String) (account : Account) :
    (∀ e, osStat fs (Join [account.RootFolder, path]) = .error e →
      Native.Link fs path account = ("", some (.os e))) ∧
    (∀ s, osStat fs (Join [account.RootFolder, path]) = .ok s → s.IsDir = true →
      Native.Link fs path account = ("", some (.errorf "can't down folder"))) ∧
    (∀ s, osStat fs (Join [account.RootFolder, path]) = .ok s → s.IsDir = false →
      Native.Link fs path account = (Join [account.RootFolder, path], none)) := by
  refine ⟨?_, ?_, ?_⟩
  · intro e h
    simp [Native.Link, h]
  · intro s h hd
    simp [Native.Link, h, hd]
  · intro s h hd
    simp [Native.Link, h, hd]

/-- On the sample tree: a missing path and the folder `b` give no link, the file
`a.txt` gives its full path. -/
theorem Native.Link_folder_or_file_witness :
    Native.Link sampleFS "nope" sampleAccount = ("", some (.os .ENOENT)) ∧
    Native.Link sampleFS "b" sampleAccount = ("", some (.errorf "can't down folder")) ∧
    Native.Link sampleFS "a.txt" sampleAccount = ("/data/a.txt", none) :=
  ⟨(Native.Link_folder_or_file sampleFS "nope" sampleAccount).1 .ENOENT (by decide),
   (Native.Link_folder_or_file sampleFS "b" sampleAccount).2.1
     { Name := "b", Size := 4096, ModTime := 4, IsDir := true, Symlink := false }
     (by decide) (by decide),
   (Native.Link_folder_or_file sampleFS "a.txt" sampleAccount).2.2
     { Name := "a.txt", Size := 10, ModTime := 3, IsDir := false, Symlink := false }
     (by decide) (by decide)⟩

/-! ## List: failures -/

/-- C8, as stated, fails: `/data/a.txt` exists and is not a folder, and
`Native.Files` fails on it with the error of `ioutil.ReadDir`, not with
`ErrPathNotFound`. -/
theorem Native.Files_not_folder_counterexample :
    osStat sampleFS (Join [sampleAccount.RootFolder, "a.txt"])
        = .ok { Name := "a.txt", Size := 10, ModTime := 3, IsDir := false, Symlink := false } ∧
    Native.Files sampleEnv sampleFS "a.txt" sampleAccount = .error (.os .ENOTDIR) ∧
    Native.Files sampleEnv sampleFS "a.txt" sampleAccount ≠ .error .ErrPathNotFound := by
  decide

/-- C8, amended: `Native.Files` fails with `ErrPathNotFound` when the resolved
path does not exist, and with the error of `ioutil.ReadDir` (not a directory)
when it exists but is not a folder; in neither case does it return a list. -/
theorem Native.Files_fails (env : Env) (fs : FS) (path : String) (account : Account) :
    (utilsExists fs (Join [account.RootFolder, path]) = false →
      Native.Files env fs path account = .error .ErrPathNotFound) ∧
    (∀ s, osStat fs (Join [account.RootFolder, path]) = .ok s → s.IsDir = false →
      Native.Files env fs path account = .error (.os .ENOTDIR)) := by
  refine ⟨?_, ?_⟩
  · intro h
    simp [Native.Files, h]
  · intro s h hd
    have hex : utilsExists fs (Join [account.RootFolder, path]) = true :=
      (utilsExists_eq_true fs _).2 ⟨s, h⟩
    simp [Native.Files, hex, ReadDir_of_not_dir fs _ s h hd]

/-- On the sample tree: a missing path gives `ErrPathNotFound`, the file `a.txt`
gives the error of the system call. -/
theorem Native.Files_fails_witness :
    Native.Files sampleEnv sampleFS "nope" sampleAccount = .error .ErrPathNotFound ∧
    Native.Files sampleEnv sampleFS "a.txt" sampleAccount = .error (.os .ENOTDIR) :=
  ⟨(Native.Files_fails sampleEnv sampleFS "nope" sampleAccount).1 (by decide),
   (Native.Files_fails sampleEnv sampleFS "a.txt" sampleAccount).2
     { Name := "a.txt", Size := 10, ModTime := 3, IsDir := false, Symlink := false }
     (by decide) (by decide)⟩

/-! ## Save -/

theorem not_exist_ne_work (root : String) : "[" ++ root ++ "] not exist" ≠ "work" := by
  intro h
  have h2 := congrArg String.data h
  simp [String.data_append] at h2

/-- C9: `Native.Save` hands to `model.SaveAccount`, exactly once, the account
it was given with only the status (and, when the root exists, the proxy flag)
changed, and leaves the caller's account in that same state.  When the root
folder does not exist, that account carries the status
`[<RootFolder>] not exist`, which is not `work`, and `Save` returns an error
whatever the store answers.  When the root folder exists, the account carries
the status `work` and `Save` returns exactly the error of the store, if any. -/
theorem Native.Save_persists (env : Env) (fs : FS) (account old : Account) :
    (utilsExists fs account.RootFolder = false →
      (Native.Save env fs account old).account
          = { account with Status := "[" ++ account.RootFolder ++ "] not exist" } ∧
      (Native.Save env fs account old).saved
          = [{ account with Status := "[" ++ account.RootFolder ++ "] not exist" }] ∧
      (Native.Save env fs account old).err
          = some (.errorf ("[" ++ account.RootFolder ++ "] not exist")) ∧
      (Native.Save env fs account old).account.Status ≠ "work") ∧
    (utilsExists fs account.RootFolder = true →
      (Native.Save env fs account old).account
          = { account with Status := "work", Proxy := true } ∧
      (Native.Save env fs account old).saved
          = [{ account with Status := "work", Proxy := true }] ∧
      (Native.Save env fs account old).err
          = env.SaveAccount { account with Status := "work", Proxy := true }) := by
  refine ⟨?_, ?_⟩
  · intro h
    simp only [Native.Save, h, Bool.not_false, if_true]
    exact ⟨trivial, trivial, trivial, not_exist_ne_work _⟩
  · intro h
    simp only [Native.Save, h, Bool.not_true, Bool.false_eq_true, if_false]
    cases hs : env.SaveAccount { account with Status := "work", Proxy := true } <;>
      simp

/-- On the sample tree, with a store that refuses every account and an old
account that differs from the new one.  The account whose root `/nowhere` is
missing, and the account whose root `/nope/../data` runs through a missing
folder, are handed to the store with the status of the missing root and give
that error; the account rooted at `/data` is handed to the store with the
status `work` and the proxy flag, and gives the error of the store. -/
theorem Native.Save_persists_witness :
    (Native.Save refusingEnv sampleFS lostAccount sampleAccount).saved
        = [{ Name := "lost", RootFolder := "/nowhere", Status := "[/nowhere] not exist",
             Proxy := false, OrderBy := "", OrderDirection := "" }] ∧
    (Native.Save refusingEnv sampleFS lostAccount sampleAccount).err
        = some (.errorf "[/nowhere] not exist") ∧
    (Native.Save refusingEnv sampleFS { sampleAccount with RootFolder := "/nope/../data" }
        lostAccount).saved
        = [{ Name := "local", RootFolder := "/nope/../data",
             Status := "[/nope/../data] not exist", Proxy := false, OrderBy := "name",
             OrderDirection := "ASC" }] ∧
    (Native.Save refusingEnv sampleFS sampleAccount lostAccount).saved
        = [{ Name := "local", RootFolder := "/data", Status := "work", Proxy := true,
             OrderBy := "name", OrderDirection := "ASC" }] ∧
    (Native.Save refusingEnv sampleFS sampleAccount lostAccount).err
        = some (.store "database is closed") :=
  ⟨((Native.Save_persists refusingEnv sampleFS lostAccount sampleAccount).1 (by decide)).2.1,
   ((Native.Save_persists refusingEnv sampleFS lostAccount sampleAccount).1 (by decide)).2.2.1,
   ((Native.Save_persists refusingEnv sampleFS { sampleAccount with RootFolder := "/nope/../data" }
      lostAccount).1 (by decide)).2.1,
   ((Native.Save_persists refusingEnv sampleFS sampleAccount lostAccount).2 (by decide)).2.1,
   ((Native.Save_persists refusingEnv sampleFS sampleAccount lostAccount).2 (by decide)).2.2⟩

/-! ## Stat and List in terms of the system calls -/

theorem Native.File_of_stat (env : Env) (fs : FS) (path : String) (account : Account)
    (s : FileInfo) (h : osStat fs (Join [account.RootFolder, path]) = .ok s) :
    Native.File env fs path account = .ok (Native.toFile env s) := by
  have hex : utilsExists fs (Join [account.RootFolder, path]) = true :=
    (utilsExists_eq_true fs _).2 ⟨s, h⟩
  unfold Native.File
  simp only [hex, h, Bool.not_true, Bool.false_eq_true, if_false]
  cases hd : s.IsDir <;> simp [Native.toFile, hd]

theorem Native.File_of_stat_error (env : Env) (fs : FS) (path : String) (account : Account)
    (e : Errno) (h : osStat fs (Join [account.RootFolder, path]) = .error e) :
    Native.File env fs path account = .error .ErrPathNotFound := by
  have hex : utilsExists fs (Join [account.RootFolder, path]) = false :=
    (utilsExists_eq_false fs _).2 ⟨e, h⟩
  simp [Native.File, hex]

theorem Native.filesStep_eq (env : Env) (files : List Alist.File) (f : FileInfo) :
    Native.filesStep env files f =
      if HasPrefix f.Name "." then files else files ++ [Native.toFile env f] := by
  unfold Native.filesStep
  by_cases hh : HasPrefix f.Name "." = true
  · simp [hh]
  · cases hd : f.IsDir <;> simp [hh, Native.toFile, hd]

theorem Native.foldl_filesStep (env : Env) (raw : List Alist.FileInfo) (acc : List Alist.File) :
    raw.foldl (Native.filesStep env) acc =
      acc ++ (raw.filter fun f => ! HasPrefix f.Name ".").map (Native.toFile env) := by
  induction raw generalizing acc with
  | nil => simp
  | cons f r ih =>
    rw [List.foldl_cons, ih, Native.filesStep_eq]
    by_cases hh : HasPrefix f.Name "." = true
    · simp [hh]
    · simp [hh]

theorem ReadDir_ok_exists (fs : FS) (name : String) (raw : List Alist.FileInfo)
    (h : ReadDir fs name = .ok raw) : utilsExists fs name = true := by
  rw [utilsExists_eq_true]
  obtain ⟨sz, mt, es, hw, -⟩ := (ReadDir_ok_iff fs name raw).1 h
  exact ⟨_, (osStat_ok_iff fs name _).2 ⟨_, hw, rfl⟩⟩

theorem Native.Files_ok_iff (env : Env) (fs : FS) (path : String) (account : Account)
    (files : List Alist.File) :
    Native.Files env fs path account = .ok files ↔
      ∃ raw, ReadDir fs (Join [account.RootFolder, path]) = .ok raw ∧
        files = env.SortFiles
          ((raw.filter fun f => ! HasPrefix f.Name ".").map (Native.toFile env)) account := by
  simp only [Native.Files]
  cases hex : utilsExists fs (Join [account.RootFolder, path])
  · simp only [Bool.not_false, if_true]
    constructor
    · intro h
      cases h
    · rintro ⟨raw, hr, -⟩
      rw [ReadDir_ok_exists fs _ raw hr] at hex
      cases hex
  · simp only [Bool.not_true, Bool.false_eq_true, if_false]
    cases hr : ReadDir fs (Join [account.RootFolder, path]) with
    | error e => simp
    | ok raw =>
      simp only [Except.ok.injEq, exists_eq_left', Native.foldl_filesStep, List.nil_append]
      exact eq_comm

theorem Native.toFile_IsDir (env : Env) (s : FileInfo)
    (hft : ∀ ext, env.GetFileType ext ≠ env.FOLDER) :
    (Native.toFile env s).IsDir env = s.IsDir := by
  cases hd : s.IsDir <;> simp [Native.toFile, File.IsDir, hd, hft]

/-! ## Copy -/

/-- C3: when `src` exists, `dst` resolves to an existing entry that is not a
folder, and `utils.GetFileType` never classifies an extension as
`conf.FOLDER`, `Native.Copy` returns `ErrNotSupport` itself; it ends in no
call of `CopyDir` or `CopyFile`. -/
theorem Native.Copy_onto_file (env : Env) (fs : FS) (src dst : String) (account : Account)
    (s d : FileInfo) (hft : ∀ ext, env.GetFileType ext ≠ env.FOLDER)
    (hsrc : osStat fs (Join [account.RootFolder, src]) = .ok s)
    (hdst : osStat fs (Join [account.RootFolder, dst]) = .ok d)
    (hd : d.IsDir = false) :
    Native.Copy env fs src dst account = .error .ErrNotSupport := by
  simp [Native.Copy, Native.File_of_stat env fs src account s hsrc,
    Native.File_of_stat env fs dst account d hdst, Native.toFile_IsDir env d hft, hd]

/-- On the sample tree: copying `a.txt` onto the existing file `b/c.txt` is
refused. -/
theorem Native.Copy_onto_file_witness :
    Native.Copy sampleEnv sampleFS "a.txt" "b/c.txt" sampleAccount = .error .ErrNotSupport :=
  Native.Copy_onto_file sampleEnv sampleFS "a.txt" "b/c.txt" sampleAccount
    { Name := "a.txt", Size := 10, ModTime := 3, IsDir := false, Symlink := false }
    { Name := "c.txt", Size := 5, ModTime := 5, IsDir := false, Symlink := false }
    (by intro ext; simp only [sampleEnv]; split <;> decide) (by decide) (by decide) (by decide)

/-- C4, as stated, fails: copying the file `a.txt` to the existing folder `b`
ends in `CopyFile` with destination `/data/b`, and copying the folder `b` to
the existing root folder ends in `CopyDir` with destination `/data`; neither
destination has the base name of the source appended. -/
theorem Native.Copy_into_folder_counterexample :
    Native.Copy sampleEnv sampleFS "a.txt" "b" sampleAccount
        = .ok (.CopyFile "/data/a.txt" "/data/b") ∧
    Join [sampleAccount.RootFolder, "b", "a.txt"] = "/data/b/a.txt" ∧
    Native.Copy sampleEnv sampleFS "b" "" sampleAccount
        = .ok (.CopyDir "/data/b" "/data") ∧
    Join [sampleAccount.RootFolder, "", "b"] = "/data/b" := by
  decide

/-- C4, amended: when `src` exists, `dst` exists and is a folder, and
`utils.GetFileType` never classifies an extension as `conf.FOLDER`,
`Native.Copy` ends in the copying step (`CopyDir` for a folder `src`,
`CopyFile` for a file `src`) with source `filepath.Join(root, src)` and
destination `filepath.Join(root, dst)`, the folder itself. -/
theorem Native.Copy_into_folder (env : Env) (fs : FS) (src dst : String) (account : Account)
    (s d : FileInfo) (hft : ∀ ext, env.GetFileType ext ≠ env.FOLDER)
    (hsrc : osStat fs (Join [account.RootFolder, src]) = .ok s)
    (hdst : osStat fs (Join [account.RootFolder, dst]) = .ok d)
    (hd : d.IsDir = true) :
    Native.Copy env fs src dst account =
      .ok (if s.IsDir then
          .CopyDir (Join [account.RootFolder, src]) (Join [account.RootFolder, dst])
        else .CopyFile (Join [account.RootFolder, src]) (Join [account.RootFolder, dst])) := by
  cases hs : s.IsDir <;>
    simp [Native.Copy, Native.File_of_stat env fs src account s hsrc,
      Native.File_of_stat env fs dst account d hdst, Native.toFile_IsDir env d hft,
      Native.toFile_IsDir env s hft, hd, hs]

/-- On the sample tree: copying `a.txt` to the folder `b`. -/
theorem Native.Copy_into_folder_witness :
    Native.Copy sampleEnv sampleFS "a.txt" "b" sampleAccount =
      .ok (if false then .CopyDir (Join ["/data", "a.txt"]) (Join ["/data", "b"])
        else .CopyFile (Join ["/data", "a.txt"]) (Join ["/data", "b"])) :=
  Native.Copy_into_folder sampleEnv sampleFS "a.txt" "b" sampleAccount
    { Name := "a.txt", Size := 10, ModTime := 3, IsDir := false, Symlink := false }
    { Name := "b", Size := 4096, ModTime := 4, IsDir := true, Symlink := false }
    (by intro ext; simp only [sampleEnv]; split <;> decide) (by decide) (by decide) (by decide)

/-! ## Resolve -/

/-- C1, as stated, fails: `/data/b` is an existing folder and `Native.Path`
succeeds on it with a nil File, next to the children. -/
theorem Native.Path_folder_counterexample :
    osStat sampleFS (Join [sampleAccount.RootFolder, "b"])
        = .ok { Name := "b", Size := 4096, ModTime := 4, IsDir := true, Symlink := false } ∧
    Native.Path sampleEnv sampleFS "b" sampleAccount =
      (none,
       some [{ Name := "c.txt", Size := 5, Type_ := 5, UpdatedAt := some 5, Driver := "Native" }],
       none) := by
  decide

/-- C1, amended: a `Native.Path` that succeeds returns exactly one of a single
File and a list of children.  When the path names a non-folder (and
`utils.GetFileType` never yields `conf.FOLDER`) it returns the File of
`Native.File` and no children; when the path names an existing folder it
returns the children of `Native.Files`, sorted once more, and a nil File. -/
theorem Native.Path_one_of (env : Env) (fs : FS) (path : String) (account : Account) :
    (∀ s, osStat fs (Join [account.RootFolder, path]) = .ok s → s.IsDir = false →
      (∀ ext, env.GetFileType ext ≠ env.FOLDER) →
      Native.Path env fs path account = (some (Native.toFile env s), none, none)) ∧
    (∀ s, osStat fs (Join [account.RootFolder, path]) = .ok s → s.IsDir = true →
      ∃ files, Native.Files env fs path account = .ok files ∧
        Native.Path env fs path account = (none, some (env.SortFiles files account), none)) ∧
    (∀ f c, Native.Path env fs path account = (f, c, none) →
      (f.isSome = true ∧ c = none) ∨ (f = none ∧ c.isSome = true)) := by
  refine ⟨?_, ?_, ?_⟩
  · intro s h hd hft
    have ht : (Native.toFile env s).Type_ ≠ env.FOLDER := by
      simp [Native.toFile, hd, hft]
    simp [Native.Path, Native.File_of_stat env fs path account s h, ht]
  · intro s h hd
    obtain ⟨sz, mt, es, -, hr⟩ := ReadDir_of_dir fs _ s h hd
    have ht : (Native.toFile env s).Type_ = env.FOLDER := by
      simp [Native.toFile, hd]
    refine ⟨_, (Native.Files_ok_iff env fs path account _).2 ⟨_, hr, rfl⟩, ?_⟩
    simp [Native.Path, Native.File_of_stat env fs path account s h, ht,
      (Native.Files_ok_iff env fs path account _).2 ⟨_, hr, rfl⟩]
  · intro f c h
    unfold Native.Path at h
    cases hf : Native.File env fs path account with
    | error e => simp [hf] at h
    | ok file =>
      simp only [hf] at h
      by_cases ht : file.Type_ = env.FOLDER
      · simp only [ht, ne_eq, not_true_eq_false, if_false] at h
        cases hl : Native.Files env fs path account with
        | error e => simp [hl] at h
        | ok files =>
          simp only [hl, Prod.mk.injEq] at h
          right
          simp [← h.1, ← h.2.1]
      · simp only [ne_eq, ht, not_false_eq_true, if_true, Prod.mk.injEq] at h
        left
        simp [← h.1, ← h.2.1]

/-- On the sample tree: `a.txt` resolves to a File alone, `b` to children alone. -/
theorem Native.Path_one_of_witness :
    Native.Path sampleEnv sampleFS "a.txt" sampleAccount =
      (some (Native.toFile sampleEnv
        { Name := "a.txt", Size := 10, ModTime := 3, IsDir := false, Symlink := false }),
       none, none) ∧
    (∃ files, Native.Files sampleEnv sampleFS "b" sampleAccount = .ok files ∧
      Native.Path sampleEnv sampleFS "b" sampleAccount =
        (none, some (sampleEnv.SortFiles files sampleAccount), none)) :=
  ⟨(Native.Path_one_of sampleEnv sampleFS "a.txt" sampleAccount).1
      { Name := "a.txt", Size := 10, ModTime := 3, IsDir := false, Symlink := false }
      (by decide) (by decide) (by intro ext; simp only [sampleEnv]; split <;> decide),
   (Native.Path_one_of sampleEnv sampleFS "b" sampleAccount).2.1
      { Name := "b", Size := 4096, ModTime := 4, IsDir := true, Symlink := false }
      (by decide) (by decide)⟩

/-! ## Folders: type and size -/

theorem Native.File_ok_iff (env : Env) (fs : FS) (path : String) (account : Account)
    (file : Alist.File) :
    Native.File env fs path account = .ok file ↔
      ∃ s, osStat fs (Join [account.RootFolder, path]) = .ok s ∧
        file = Native.toFile env s := by
  cases h : osStat fs (Join [account.RootFolder, path]) with
  | error e => simp [Native.File_of_stat_error env fs path account e h]
  | ok s =>
    simp only [Native.File_of_stat env fs path account s h, Except.ok.injEq, exists_eq_left']
    exact eq_comm

theorem sampleEnv_SortFiles_perm (l : List File) (a : Account) :
    (sampleEnv.SortFiles l a).Perm l :=
  List.perm_insertionSort _ l

/-- C6, as stated, fails.  `/data/b` is a folder, and both `Native.File` and
`Native.Files` report it with type `conf.FOLDER` and the size the system gives
for the directory, 4096, not 0.  `/data/dl` is a symbolic link to that folder,
with the child `dl/c.txt` addressable through it: `Native.File` reports it as a
folder of size 4096, `Native.Files` lists it with the type of its extension and
the size of the link. -/
theorem Native.folder_size_counterexample :
    Native.File sampleEnv sampleFS "b" sampleAccount =
      .ok { Name := "b", Size := 4096, Type_ := sampleEnv.FOLDER, UpdatedAt := some 4,
            Driver := "Native" } ∧
    Native.Files sampleEnv sampleFS "" sampleAccount = .ok sampleListing ∧
    sampleListing.map (fun f => (f.Name, f.Size, f.Type_)) =
      [("a.txt", 10, 5), ("b", 4096, sampleEnv.FOLDER), ("dead", 4, 0), ("dl", 1, 0),
       ("ln", 5, 0)] ∧
    Native.File sampleEnv sampleFS "dl" sampleAccount =
      .ok { Name := "dl", Size := 4096, Type_ := sampleEnv.FOLDER, UpdatedAt := some 4,
            Driver := "Native" } ∧
    Native.File sampleEnv sampleFS "dl/c.txt" sampleAccount =
      .ok { Name := "c.txt", Size := 5, Type_ := 5, UpdatedAt := some 5, Driver := "Native" } := by
  decide

/-- C6, amended.  A File that `Native.File` returns describes the node the full
path resolves to with symbolic links followed: it has the size of that node,
the type `conf.FOLDER` when that node is a directory, and otherwise the type
`utils.GetFileType` gives for the extension of its name.  A File that
`Native.Files` returns (with a `model.SortFiles` that only permutes) describes
an entry of the listed directory as it is, no symbolic link followed: it has
the size of that entry, the type `conf.FOLDER` when the entry itself is a
directory, and otherwise, also when the entry is a symbolic link to a
directory, the type `utils.GetFileType` gives for the extension of its name.
The size of a folder is the one recorded for the directory, not 0. -/
theorem Native.File_type_size (env : Env) (fs : FS) (path : String) (account : Account) :
    (∀ file, Native.File env fs path account = .ok file →
      ∃ n, fs.resolve (Join [account.RootFolder, path]) = .ok n ∧
        file.Size = n.size ∧
        (n.isDir = true → file.Type_ = env.FOLDER) ∧
        (n.isDir = false → file.Type_ = env.GetFileType (Ext file.Name))) ∧
    (∀ files, (∀ l a, (env.SortFiles l a).Perm l) →
      Native.Files env fs path account = .ok files →
      ∃ sz mt es, fs.resolve (Join [account.RootFolder, path]) = .ok (.dir sz mt es) ∧
        ∀ file ∈ files, ∃ n, (file.Name, n) ∈ dirEntries es ∧
          file.Size = n.size ∧
          (n.isDir = true → file.Type_ = env.FOLDER) ∧
          (n.isDir = false → file.Type_ = env.GetFileType (Ext file.Name)) ∧
          (n.isSymlink = true → file.Type_ = env.GetFileType (Ext file.Name))) := by
  refine ⟨?_, ?_⟩
  · intro file h
    obtain ⟨s, hs, rfl⟩ := (Native.File_ok_iff env fs path account file).1 h
    obtain ⟨n, hn, rfl⟩ := (osStat_ok_iff fs _ s).1 hs
    refine ⟨n, hn, rfl, ?_, ?_⟩ <;> intro hd <;> simp [Native.toFile, hd]
  · intro files hperm h
    obtain ⟨raw, hr, rfl⟩ := (Native.Files_ok_iff env fs path account files).1 h
    obtain ⟨sz, mt, es, hw, rfl⟩ := (ReadDir_ok_iff fs _ raw).1 hr
    refine ⟨sz, mt, es, hw, ?_⟩
    intro file hmem
    rw [(hperm _ _).mem_iff, List.mem_map] at hmem
    obtain ⟨r, hrmem, rfl⟩ := hmem
    obtain ⟨⟨k, n⟩, hkn, rfl⟩ := List.mem_map.1 (List.mem_filter.1 hrmem).1
    refine ⟨n, hkn, rfl, ?_, ?_, ?_⟩
    · intro hd
      simp [Native.toFile, lstatInfo, hd]
    · intro hd
      simp [Native.toFile, lstatInfo, hd]
    · intro hl
      cases n with
      | file a b => simp [Node.isSymlink] at hl
      | dir a b es2 => simp [Node.isSymlink] at hl
      | symlink a b t => simp [Native.toFile, lstatInfo, Node.isDir]

/-- On the sample tree: the File of `/data/dl` describes the folder the link
resolves to, and every File of the listing of `/data` describes an entry of
`/data` as it is. -/
theorem Native.File_type_size_witness :
    (∃ n, sampleFS.resolve (Join [sampleAccount.RootFolder, "dl"]) = .ok n ∧
      (4096 : Int) = n.size ∧
      (n.isDir = true → sampleEnv.FOLDER = sampleEnv.FOLDER) ∧
      (n.isDir = false → sampleEnv.FOLDER = sampleEnv.GetFileType (Ext "dl"))) ∧
    (∃ sz mt es, sampleFS.resolve (Join [sampleAccount.RootFolder, ""]) = .ok (.dir sz mt es) ∧
      ∀ file ∈ sampleListing, ∃ n, (file.Name, n) ∈ dirEntries es ∧
        file.Size = n.size ∧
        (n.isDir = true → file.Type_ = sampleEnv.FOLDER) ∧
        (n.isDir = false → file.Type_ = sampleEnv.GetFileType (Ext file.Name)) ∧
        (n.isSymlink = true → file.Type_ = sampleEnv.GetFileType (Ext file.Name))) :=
  ⟨(Native.File_type_size sampleEnv sampleFS "dl" sampleAccount).1
      { Name := "dl", Size := 4096, Type_ := sampleEnv.FOLDER, UpdatedAt := some 4,
        Driver := "Native" } (by decide),
   (Native.File_type_size sampleEnv sampleFS "" sampleAccount).2 sampleListing
      sampleEnv_SortFiles_perm (by decide)⟩

/-! ## List: hidden entries -/

/-- C5: when `Native.Files` succeeds and `model.SortFiles` only permutes the
slice, no returned File has a name beginning with `.`, and every entry of
`ioutil.ReadDir` whose name does not begin with `.` has its File in the
result. -/
theorem Native.Files_hidden (env : Env) (fs : FS) (path : String) (account : Account)
    (files : List Alist.File) (hperm : ∀ l a, (env.SortFiles l a).Perm l)
    (h : Native.Files env fs path account = .ok files) :
    ∃ raw, ReadDir fs (Join [account.RootFolder, path]) = .ok raw ∧
      (∀ file ∈ files, HasPrefix file.Name "." = false) ∧
      (∀ r ∈ raw, HasPrefix r.Name "." = false → Native.toFile env r ∈ files) := by
  obtain ⟨raw, hr, rfl⟩ := (Native.Files_ok_iff env fs path account files).1 h
  refine ⟨raw, hr, ?_, ?_⟩
  · intro file hmem
    rw [(hperm _ _).mem_iff, List.mem_map] at hmem
    obtain ⟨r, hrmem, rfl⟩ := hmem
    simpa [Native.toFile] using (List.mem_filter.1 hrmem).2
  · intro r hrmem hh
    rw [(hperm _ _).mem_iff, List.mem_map]
    exact ⟨r, List.mem_filter.2 ⟨hrmem, by simp [hh]⟩, rfl⟩

/-- On the sample tree: the listing of `/data` leaves `.hidden` out and keeps
the four other entries. -/
theorem Native.Files_hidden_witness :
    ∃ raw, ReadDir sampleFS (Join [sampleAccount.RootFolder, ""]) = .ok raw ∧
      (∀ file ∈ sampleListing, HasPrefix file.Name "." = false) ∧
      (∀ r ∈ raw, HasPrefix r.Name "." = false → Native.toFile sampleEnv r ∈ sampleListing) :=
  Native.Files_hidden sampleEnv sampleFS "" sampleAccount sampleListing
    sampleEnv_SortFiles_perm (by decide)

/-! ## Splitting and joining paths -/

theorem splitSlash_ne_nil (l : List Char) : splitSlash l ≠ [] := by
  cases l with
  | nil => simp [splitSlash]
  | cons c cs =>
    unfold splitSlash
    split
    · simp
    · split <;> simp

theorem splitSlash_append (a b : List Char) :
    splitSlash (a ++ '/' :: b) = splitSlash a ++ splitSlash b := by
  induction a with
  | nil => simp [splitSlash]
  | cons c a ih =>
    by_cases hc : c = '/'
    · simp [splitSlash, hc, ih]
    · have hne := splitSlash_ne_nil a
      cases hs : splitSlash a with
      | nil => exact absurd hs hne
      | cons s r =>
        simp only [List.cons_append, splitSlash, hc, if_false, List.append_eq, ih, hs]

theorem splitSlash_of_noSlash (s : List Char) (h : '/' ∉ s) : splitSlash s = [s] := by
  induction s with
  | nil => rfl
  | cons c s ih =>
    have hc : c ≠ '/' := fun e => h (by simp [e])
    have hs : '/' ∉ s := fun e => h (List.mem_cons_of_mem _ e)
    simp [splitSlash, hc, ih hs]

theorem splitSlash_noSlash (l : List Char) : ∀ s ∈ splitSlash l, '/' ∉ s := by
  induction l with
  | nil => simp [splitSlash]
  | cons c l ih =>
    by_cases hc : c = '/'
    · intro s hs
      simp only [splitSlash, hc, if_true, List.mem_cons] at hs
      rcases hs with rfl | hs
      · simp
      · exact ih s hs
    · have hne := splitSlash_ne_nil l
      cases hl : splitSlash l with
      | nil => exact absurd hl hne
      | cons t r =>
        rw [hl] at ih
        intro s hs
        simp only [splitSlash, hc, if_false, hl, List.mem_cons] at hs
        rcases hs with rfl | hs
        · have := ih t (by simp)
          simp only [List.mem_cons, not_or]
          exact ⟨fun e => hc e.symm, this⟩
        · exact ih s (by simp [hs])

theorem splitSlash_joinSegs (segs : List Seg) (hne : segs ≠ [])
    (h : ∀ s ∈ segs, '/' ∉ s) : splitSlash (joinSegs segs) = segs := by
  induction segs with
  | nil => exact absurd rfl hne
  | cons s r ih =>
    cases r with
    | nil => simpa [joinSegs] using splitSlash_of_noSlash s (h s (by simp))
    | cons t r =>
      have h1 := splitSlash_of_noSlash s (h s (by simp))
      have h2 := ih (by simp) (fun x hx => h x (List.mem_cons_of_mem _ hx))
      simp only [joinSegs, splitSlash_append, h1, h2, List.singleton_append]

/-! ## The elements `filepath.Clean` writes -/

theorem cleanStep_NF (r : Bool) (st : List Seg) (x : Seg) (hst : StackNF r st)
    (hx : '/' ∉ x) : StackNF r (cleanStep r st x) := by
  unfold cleanStep
  split
  · exact hst
  · rename_i h1
    simp only [not_or] at h1
    split
    · rename_i h2
      cases st with
      | nil =>
        cases r
        · simp [StackNF, dotdot]
        · simp [StackNF]
      | cons top rest =>
        simp only
        split
        · rename_i h3
          refine ⟨by simp [dotdot], by simp [dotdot], by simp [dotdot], ?_, hst⟩
          intro _
          have := hst.2.2.2.1 h3
          refine ⟨this.1, ?_⟩
          intro y hy
          rcases List.mem_cons.1 hy with rfl | hy
          · exact h3
          · exact this.2 y hy
        · exact hst.2.2.2.2
    · rename_i h2
      exact ⟨h1.1, h1.2, hx, fun e => absurd e h2, hst⟩

theorem foldl_cleanStep_NF (r : Bool) (segs : List Seg) (st : List Seg) (hst : StackNF r st)
    (hx : ∀ x ∈ segs, '/' ∉ x) : StackNF r (segs.foldl (cleanStep r) st) := by
  induction segs generalizing st with
  | nil => exact hst
  | cons x segs ih =>
    exact ih _ (cleanStep_NF r st x hst (hx x (by simp)))
      (fun y hy => hx y (List.mem_cons_of_mem _ hy))

theorem cleanStep_push (r : Bool) (st : List Seg) (x : Seg) (h1 : x ≠ []) (h2 : x ≠ ['.'])
    (h3 : x ≠ dotdot) : cleanStep r st x = x :: st := by
  simp [cleanStep, h1, h2, h3]

theorem foldl_cleanStep_push (r : Bool) (q : List Seg) (st : List Seg)
    (hq : ∀ x ∈ q, x ≠ [] ∧ x ≠ ['.'] ∧ x ≠ dotdot) :
    q.foldl (cleanStep r) st = q.reverse ++ st := by
  induction q generalizing st with
  | nil => rfl
  | cons x q ih =>
    obtain ⟨h1, h2, h3⟩ := hq x (by simp)
    rw [List.foldl_cons, cleanStep_push r st x h1 h2 h3,
      ih _ (fun y hy => hq y (List.mem_cons_of_mem _ hy))]
    simp

theorem foldl_cleanStep_reverse (r : Bool) (st : List Seg) (hst : StackNF r st) :
    st.reverse.foldl (cleanStep r) [] = st := by
  induction st with
  | nil => rfl
  | cons x st ih =>
    rw [List.reverse_cons, List.foldl_append, ih hst.2.2.2.2]
    simp only [List.foldl_cons, List.foldl_nil]
    by_cases hx : x = dotdot
    · obtain ⟨hr, hall⟩ := hst.2.2.2.1 hx
      subst hx
      cases st with
      | nil => simp [cleanStep, hr, dotdot]
      | cons top rest =>
        have ht : top = dotdot := hall top (by simp)
        simp [cleanStep, ht, dotdot]
    · exact cleanStep_push r st x hst.1 hst.2.1 hx

theorem cleanSegs_idem (r : Bool) (segs : List Seg) (h : ∀ x ∈ segs, '/' ∉ x) :
    cleanSegs r (cleanSegs r segs) = cleanSegs r segs := by
  unfold cleanSegs
  rw [foldl_cleanStep_reverse r _ (foldl_cleanStep_NF r segs [] trivial h)]

theorem cleanStep_skip_nil (r : Bool) (st : List Seg) : cleanStep r st [] = st := by
  simp [cleanStep]

theorem cleanStep_skip_dot (r : Bool) (st : List Seg) : cleanStep r st ['.'] = st := by
  simp [cleanStep]

theorem joinSegs_head (segs : List Seg) (x : Seg) (c : Char) (cs : List Char)
    (hx : x = c :: cs) : ∃ t, joinSegs (x :: segs) = c :: t := by
  subst hx
  cases segs with
  | nil => exact ⟨cs, rfl⟩
  | cons y r => exact ⟨cs ++ '/' :: joinSegs (y :: r), rfl⟩

theorem pathSegs_NF (path : String) : StackNF (isRooted path) (pathSegs path).reverse := by
  unfold pathSegs cleanSegs
  rw [List.reverse_reverse]
  exact foldl_cleanStep_NF _ _ [] trivial (splitSlash_noSlash _)

theorem StackNF_noSlash (r : Bool) (st : List Seg) (h : StackNF r st) : ∀ x ∈ st, '/' ∉ x := by
  induction st with
  | nil => simp
  | cons y st ih =>
    intro x hx
    rcases List.mem_cons.1 hx with rfl | hx
    · exact h.2.2.1
    · exact ih h.2.2.2.2 x hx

theorem StackNF_proper (r : Bool) (st : List Seg) (h : StackNF r st) :
    ∀ x ∈ st, x ≠ [] ∧ x ≠ ['.'] := by
  induction st with
  | nil => simp
  | cons y st ih =>
    intro x hx
    rcases List.mem_cons.1 hx with rfl | hx
    · exact ⟨h.1, h.2.1⟩
    · exact ih h.2.2.2.2 x hx

theorem pathSegs_noSlash (path : String) : ∀ x ∈ pathSegs path, '/' ∉ x := by
  intro x hx
  exact StackNF_noSlash _ _ (pathSegs_NF path) x (List.mem_reverse.2 hx)

/-- Folding the loop of `Clean` over the split of a cleaned path is folding it
over the elements of the path that was cleaned. -/
theorem foldl_split_Clean (path : String) (hne : path ≠ "") (r : Bool) (st : List Seg) :
    (splitSlash (Clean path).data).foldl (cleanStep r) st =
      (pathSegs path).foldl (cleanStep r) st := by
  unfold Clean
  simp only [hne, if_false]
  by_cases hr : isRooted path = true
  · simp only [hr, if_true]
    by_cases hs : pathSegs path = []
    · simp [hs, joinSegs, splitSlash, cleanStep_skip_nil]
    · have := splitSlash_joinSegs (pathSegs path) hs (pathSegs_noSlash path)
      simp [splitSlash, this, cleanStep_skip_nil]
  · simp only [hr, Bool.false_eq_true, if_false]
    by_cases hs : pathSegs path = []
    · simp only [hs, if_true, List.foldl_nil]
      show (splitSlash ['.']).foldl (cleanStep r) st = st
      simp [splitSlash, cleanStep_skip_dot]
    · simp only [hs, if_false]
      rw [splitSlash_joinSegs (pathSegs path) hs (pathSegs_noSlash path)]

theorem isRooted_Clean (path : String) (hne : path ≠ "") :
    isRooted (Clean path) = isRooted path := by
  unfold Clean
  simp only [hne, if_false]
  by_cases hr : isRooted path = true
  · rw [if_pos hr, hr]
    rfl
  · simp only [hr, Bool.false_eq_true, if_false]
    have hr : isRooted path = false := by simpa using hr
    by_cases hs : pathSegs path = []
    · simp only [hs, if_true, hr]
      rfl
    · simp only [hs, if_false, hr]
      have hnf := pathSegs_NF path
      cases hp : pathSegs path with
      | nil => exact absurd hp hs
      | cons x rest =>
        have hx : x ∈ (pathSegs path).reverse := by simp [hp]
        have h1 := (StackNF_proper _ _ hnf x hx).1
        have h2 := StackNF_noSlash _ _ hnf x hx
        cases x with
        | nil => exact absurd rfl h1
        | cons c cs =>
          obtain ⟨t, ht⟩ := joinSegs_head rest (c :: cs) c cs rfl
          have hc : c ≠ '/' := fun e => h2 (by simp [e])
          simp [isRooted, ht, hc]

theorem pathSegs_Clean (path : String) (hne : path ≠ "") :
    pathSegs (Clean path) = pathSegs path := by
  have h := foldl_split_Clean path hne (isRooted path) []
  have hnf := pathSegs_NF path
  have h2 := foldl_cleanStep_reverse _ _ hnf
  rw [List.reverse_reverse] at h2
  show cleanSegs (isRooted (Clean path)) (splitSlash (Clean path).data) = pathSegs path
  rw [isRooted_Clean path hne]
  unfold cleanSegs
  rw [h, h2, List.reverse_reverse]

/-! ## Paths that do not climb -/

theorem cleanStep_dotdot_mem (r : Bool) (st : List Seg) (x : Seg) (h : dotdot ∈ st) :
    dotdot ∈ cleanStep r st x := by
  unfold cleanStep
  split
  · exact h
  · split
    · cases st with
      | nil => simp at h
      | cons top rest =>
        simp only
        split
        · exact List.mem_cons_of_mem _ h
        · rename_i h3
          rcases List.mem_cons.1 h with e | e
          · exact absurd e.symm h3
          · exact e
    · exact List.mem_cons_of_mem _ h

theorem foldl_cleanStep_dotdot_mem (r : Bool) (segs : List Seg) (st : List Seg)
    (h : dotdot ∈ st) : dotdot ∈ segs.foldl (cleanStep r) st := by
  induction segs generalizing st with
  | nil => exact h
  | cons x segs ih => exact ih _ (cleanStep_dotdot_mem r st x h)

theorem cleanStep_confined (r : Bool) (t s : List Seg) (x : Seg)
    (h : dotdot ∉ cleanStep false t x) :
    cleanStep r (t ++ s) x = cleanStep false t x ++ s := by
  unfold cleanStep at h ⊢
  by_cases h1 : x = [] ∨ x = ['.']
  · simp [h1]
  · simp only [h1, if_false] at h ⊢
    by_cases h2 : x = dotdot
    · simp only [h2, if_true] at h ⊢
      cases t with
      | nil => simp at h
      | cons top rest =>
        simp only [List.cons_append] at h ⊢
        by_cases h3 : top = dotdot
        · simp [h3] at h
        · simp [h3]
    · simp [h2]

theorem foldl_cleanStep_confined (r : Bool) (segs : List Seg) (t s : List Seg)
    (h : dotdot ∉ segs.foldl (cleanStep false) t) :
    segs.foldl (cleanStep r) (t ++ s) = segs.foldl (cleanStep false) t ++ s := by
  induction segs generalizing t with
  | nil => rfl
  | cons x segs ih =>
    simp only [List.foldl_cons] at h ⊢
    have hx : dotdot ∉ cleanStep false t x :=
      fun e => h (foldl_cleanStep_dotdot_mem false segs _ e)
    rw [cleanStep_confined r t s x hx]
    exact ih _ h

theorem confined_iff (path : String) :
    confined path = true ↔ dotdot ∉ (splitSlash path.data).foldl (cleanStep false) [] := by
  simp [confined, cleanSegs]

theorem Join_pair (root path : String) (h : root ≠ "") :
    Join [root, path] = Clean (root ++ "/" ++ path) := by
  simp [Join, h, String.intercalate, String.intercalate.go]

theorem Join_triple (root path name : String) (h : root ≠ "") :
    Join [root, path, name] = Join [root, path ++ "/" ++ name] := by
  simp [Join, h, String.intercalate, String.intercalate.go, String.append_assoc]

theorem data_ne_nil (s : String) (h : s ≠ "") : s.data ≠ [] := by
  intro e
  apply h
  cases s
  simp_all

theorem append_slash_ne (root path : String) : root ++ "/" ++ path ≠ "" := by
  intro e
  have := congrArg String.data e
  simp [String.data_append] at this

theorem isRooted_append_slash (root path : String) (h : root ≠ "") :
    isRooted (root ++ "/" ++ path) = isRooted root := by
  have hd := data_ne_nil root h
  cases hr : root.data with
  | nil => exact absurd hr hd
  | cons c cs => simp [isRooted, String.data_append, hr]

theorem splitSlash_append_slash (root path : String) :
    splitSlash (root ++ "/" ++ path).data = splitSlash root.data ++ splitSlash path.data := by
  have : (root ++ "/" ++ path).data = root.data ++ '/' :: path.data := by
    simp [String.data_append]
  rw [this, splitSlash_append]

/-- The elements of `Join(root, path)` for a path that does not climb: those of
the root followed by those of the path. -/
theorem pathSegs_Join_confined (root path : String) (hroot : root ≠ "")
    (hc : confined path = true) :
    isRooted (Join [root, path]) = isRooted root ∧
    pathSegs (Join [root, path])
      = pathSegs root ++ cleanSegs false (splitSlash path.data) := by
  have hne := append_slash_ne root path
  rw [Join_pair root path hroot]
  refine ⟨by rw [isRooted_Clean _ hne, isRooted_append_slash root path hroot], ?_⟩
  rw [pathSegs_Clean _ hne]
  unfold pathSegs cleanSegs
  rw [isRooted_append_slash root path hroot, splitSlash_append_slash, List.foldl_append]
  have := foldl_cleanStep_confined (isRooted root) (splitSlash path.data) []
    ((splitSlash root.data).foldl (cleanStep (isRooted root)) []) ((confined_iff path).1 hc)
  rw [List.nil_append] at this
  rw [this, List.reverse_append]

theorem underRoot_of_append (root full : String) (rest : List Seg)
    (hr : isRooted full = isRooted root) (hs : pathSegs full = pathSegs root ++ rest)
    (hd : dotdot ∉ rest) : underRoot root full = true := by
  unfold underRoot
  rw [hr, hs, List.drop_left]
  simp [hd]

/-- C2, as stated, fails: under the root `/data` the path `../etc/passwd`
resolves to `/etc/passwd`, which is neither rejected nor below the root:
`Native.File` describes that file, `Native.Move` renames onto it, and an upload
into `..` is written to `/x`.  With an empty root a rooted path resolves to
itself. -/
theorem Native.root_escape_counterexample :
    Join [sampleAccount.RootFolder, "../etc/passwd"] = "/etc/passwd" ∧
    underRoot sampleAccount.RootFolder "/etc/passwd" = false ∧
    Native.File sampleEnv sampleFS "../etc/passwd" sampleAccount =
      .ok { Name := "passwd", Size := 99, Type_ := 0, UpdatedAt := some 9,
            Driver := "Native" } ∧
    Native.Move "a.txt" "../etc/passwd" sampleAccount = .Rename "/data/a.txt" "/etc/passwd" ∧
    Native.UploadPath { Path := "..", Name := "x" } sampleAccount = "/x" ∧
    Join ["", "/etc/passwd"] = "/etc/passwd" ∧
    underRoot "" "/etc/passwd" = false := by
  decide

/-- C2, amended: for an account with a non-empty root and every path whose
`..` elements never climb above the point where the path starts (in particular
every path without `..` elements), the full path
`filepath.Join(account.RootFolder, path)` that File, Files, Link, MakeDir, Move,
Copy and Delete compute is the root itself or a descendant of the root; so is
the full path `filepath.Join(account.RootFolder, file.Path, file.Name)` of
Upload when `file.Path/file.Name` does not climb. -/
theorem Native.fullPath_confined (account : Account) (hroot : account.RootFolder ≠ "") :
    (∀ path, confined path = true →
      underRoot account.RootFolder (Join [account.RootFolder, path]) = true) ∧
    (∀ file : FileStream, confined (file.Path ++ "/" ++ file.Name) = true →
      underRoot account.RootFolder (Native.UploadPath file account) = true) := by
  have key : ∀ path, confined path = true →
      underRoot account.RootFolder (Join [account.RootFolder, path]) = true := by
    intro path hc
    obtain ⟨h1, h2⟩ := pathSegs_Join_confined account.RootFolder path hroot hc
    refine underRoot_of_append _ _ _ h1 h2 ?_
    unfold cleanSegs
    rw [List.mem_reverse]
    exact (confined_iff path).1 hc
  refine ⟨key, ?_⟩
  intro file hc
  unfold Native.UploadPath
  rw [Join_triple _ _ _ hroot]
  exact key _ hc

/-- On the sample account: the path `b/../a.txt` and an upload of `new.txt`
into `b` stay below `/data`. -/
theorem Native.fullPath_confined_witness :
    underRoot sampleAccount.RootFolder (Join [sampleAccount.RootFolder, "b/../a.txt"]) = true ∧
    underRoot sampleAccount.RootFolder
      (Native.UploadPath { Path := "b", Name := "new.txt" } sampleAccount) = true :=
  ⟨(Native.fullPath_confined sampleAccount (by decide)).1 "b/../a.txt" (by decide),
   (Native.fullPath_confined sampleAccount (by decide)).2 { Path := "b", Name := "new.txt" }
     (by decide)⟩

/-! ## Directory entries -/

theorem lookup_filter_legal (es : List (String × Node)) (k : String) (hk : legalName k = true) :
    (es.filter fun e => legalName e.1).lookup k = es.lookup k := by
  induction es with
  | nil => rfl
  | cons e es ih =>
    obtain ⟨k2, v⟩ := e
    by_cases hl : legalName k2 = true
    · simp only [List.filter_cons, hl, if_true, List.lookup_cons, ih]
    · by_cases hkk : k = k2
      · subst hkk
        exact absurd hk hl
      · have : (k == k2) = false := by simpa using hkk
        simp only [List.filter_cons, hl, Bool.false_eq_true, if_false, List.lookup_cons, ih, this]

theorem mem_firstByName (l : List (String × Node)) (seen : List String) (k : String) (n : Node)
    (h : (k, n) ∈ firstByName seen l) : k ∉ seen ∧ l.lookup k = some n := by
  induction l generalizing seen with
  | nil => simp [firstByName] at h
  | cons e l ih =>
    obtain ⟨k2, v⟩ := e
    unfold firstByName at h
    by_cases hs : k2 ∈ seen
    · simp only [hs, if_true] at h
      obtain ⟨h1, h2⟩ := ih seen h
      have hkk : k ≠ k2 := fun e => h1 (e ▸ hs)
      have : (k == k2) = false := by simpa using hkk
      exact ⟨h1, by simp only [List.lookup_cons, this, h2]⟩
    · simp only [hs, if_false, List.mem_cons, Prod.mk.injEq] at h
      rcases h with ⟨rfl, rfl⟩ | h
      · exact ⟨hs, by simp [List.lookup_cons]⟩
      · obtain ⟨h1, h2⟩ := ih (k2 :: seen) h
        have hkk : k ≠ k2 := fun e => h1 (by simp [e])
        have : (k == k2) = false := by simpa using hkk
        exact ⟨fun e => h1 (List.mem_cons_of_mem _ e), by simp only [List.lookup_cons, this, h2]⟩

theorem mem_firstByName_mem (l : List (String × Node)) (seen : List String) (e : String × Node)
    (h : e ∈ firstByName seen l) : e ∈ l := by
  induction l generalizing seen with
  | nil => simp [firstByName] at h
  | cons e2 l ih =>
    obtain ⟨k2, v⟩ := e2
    unfold firstByName at h
    by_cases hs : k2 ∈ seen
    · simp only [hs, if_true] at h
      exact List.mem_cons_of_mem _ (ih seen h)
    · simp only [hs, if_false, List.mem_cons] at h
      rcases h with rfl | h
      · simp
      · exact List.mem_cons_of_mem _ (ih _ h)

theorem mem_dirEntries (es : List (String × Node)) (k : String) (n : Node)
    (h : (k, n) ∈ dirEntries es) : legalName k = true ∧ es.lookup k = some n := by
  unfold dirEntries at h
  have hl : legalName k = true := by
    have := mem_firstByName_mem _ _ _ h
    simpa using (List.mem_filter.1 this).2
  refine ⟨hl, ?_⟩
  rw [← lookup_filter_legal es k hl]
  exact (mem_firstByName _ _ k n h).2

theorem legalName_data (k : String) (h : legalName k = true) :
    k.data ≠ [] ∧ k.data ≠ ['.'] ∧ k.data ≠ dotdot ∧ '/' ∉ k.data := by
  simp only [legalName, Bool.and_eq_true, decide_eq_true_eq, Bool.not_eq_true',
    List.contains_eq_any_beq, List.any_eq_false, beq_iff_eq] at h
  obtain ⟨⟨⟨h1, h2⟩, h3⟩, h4⟩ := h
  refine ⟨data_ne_nil k h1, ?_, ?_, ?_⟩
  · intro e
    apply h2
    cases k
    simp_all
  · intro e
    apply h3
    cases k
    simp_all [dotdot]
  · intro e
    exact h4 _ e rfl

/-! ## The path of a child -/

theorem Clean_ne_empty (path : String) : Clean path ≠ "" := by
  unfold Clean
  split
  · decide
  · split
    · intro e
      have := congrArg String.data e
      simp at this
    · split
      · decide
      · rename_i hs
        have hnf := pathSegs_NF path
        cases hp : pathSegs path with
        | nil => exact absurd hp hs
        | cons x rest =>
          have hx : x ∈ (pathSegs path).reverse := by simp [hp]
          have h1 := (StackNF_proper _ _ hnf x hx).1
          cases x with
          | nil => exact absurd rfl h1
          | cons c cs =>
            obtain ⟨t, ht⟩ := joinSegs_head rest (c :: cs) c cs rfl
            intro e
            have := congrArg String.data e
            simp [ht] at this

theorem Join_single (x : String) (h : x ≠ "") : Join [x] = Clean x := by
  simp [Join, h, String.intercalate, String.intercalate.go]

theorem Join_empty_left (x : String) : Join ["", x] = Join [x] := by
  simp [Join]

theorem pathSegs_append_name (d k : String) (hd : d ≠ "") (hk : legalName k = true) :
    isRooted (d ++ "/" ++ k) = isRooted d ∧
    pathSegs (d ++ "/" ++ k) = pathSegs d ++ [k.data] := by
  obtain ⟨k1, k2, k3, k4⟩ := legalName_data k hk
  refine ⟨isRooted_append_slash d k hd, ?_⟩
  unfold pathSegs cleanSegs
  rw [isRooted_append_slash d k hd, splitSlash_append_slash, splitSlash_of_noSlash _ k4,
    List.foldl_append]
  simp [cleanStep_push _ _ _ k1 k2 k3]

/-- The elements of the cleaned `Join(d, name)` for a folder path `d` that does
not climb: those `d` keeps, then the name. -/
theorem pathSegs_Join_name (d k : String) (hk : legalName k = true)
    (hc : confined d = true) :
    ∃ j, j ≠ "" ∧ Join [d, k] = Clean j ∧
      pathSegs j = ((splitSlash d.data).foldl (cleanStep false) []).reverse ++ [k.data] := by
  obtain ⟨k1, k2, k3, k4⟩ := legalName_data k hk
  have hkne : k ≠ "" := by
    intro e
    apply k1
    rw [e]
  by_cases hd : d = ""
  · refine ⟨k, hkne, ?_, ?_⟩
    · rw [hd, Join_empty_left, Join_single k hkne]
    · subst hd
      unfold pathSegs cleanSegs
      rw [splitSlash_of_noSlash _ k4]
      have : splitSlash ("" : String).data = [[]] := rfl
      simp [this, cleanStep_push _ _ _ k1 k2 k3, cleanStep_skip_nil]
  · refine ⟨d ++ "/" ++ k, append_slash_ne d k, Join_pair d k hd, ?_⟩
    rw [(pathSegs_append_name d k hd hk).2]
    congr 1
    unfold pathSegs cleanSegs
    have := foldl_cleanStep_confined (isRooted d) (splitSlash d.data) [] []
      ((confined_iff d).1 hc)
    simp only [List.append_nil] at this
    rw [this]

/-- The full path of a child: with `Join(root, d)` the clean form of `s`, the
full path of `Join(d, name)` is the clean form of some `s2` with the elements
of `s` followed by the name. -/
theorem child_fullPath (root d k : String) (hk : legalName k = true)
    (hc : confined d = true) (hF : Join [root, d] ≠ "") :
    ∃ s s2, s ≠ "" ∧ s2 ≠ "" ∧ Join [root, d] = Clean s ∧
      Join [root, Join [d, k]] = Clean s2 ∧
      isRooted s2 = isRooted s ∧ pathSegs s2 = pathSegs s ++ [k.data] := by
  obtain ⟨k1, k2, k3, k4⟩ := legalName_data k hk
  by_cases hroot : root = ""
  · subst hroot
    have hd : d ≠ "" := by
      intro e
      apply hF
      rw [e]
      rfl
    refine ⟨d, Clean (d ++ "/" ++ k), hd, Clean_ne_empty _, ?_, ?_, ?_, ?_⟩
    · rw [Join_empty_left, Join_single d hd]
    · rw [Join_empty_left, Join_pair d k hd, Join_single _ (Clean_ne_empty _)]
    · rw [isRooted_Clean _ (append_slash_ne d k), (pathSegs_append_name d k hd hk).1]
    · rw [pathSegs_Clean _ (append_slash_ne d k), (pathSegs_append_name d k hd hk).2]
  · obtain ⟨j, hj, hJ, hsegs⟩ := pathSegs_Join_name d k hk hc
    refine ⟨root ++ "/" ++ d, root ++ "/" ++ Clean j, append_slash_ne _ _, append_slash_ne _ _,
      Join_pair root d hroot, ?_, ?_, ?_⟩
    · rw [hJ, Join_pair root _ hroot]
    · rw [isRooted_append_slash root _ hroot, isRooted_append_slash root _ hroot]
    · have hP := (confined_iff d).1 hc
      have hnf : StackNF false ((splitSlash d.data).foldl (cleanStep false) []) :=
        foldl_cleanStep_NF false _ [] trivial (splitSlash_noSlash _)
      have hpush : ∀ x ∈ ((splitSlash d.data).foldl (cleanStep false) []).reverse,
          x ≠ [] ∧ x ≠ ['.'] ∧ x ≠ dotdot := by
        intro x hx
        rw [List.mem_reverse] at hx
        exact ⟨(StackNF_proper _ _ hnf x hx).1, (StackNF_proper _ _ hnf x hx).2,
          fun e => hP (e ▸ hx)⟩
      unfold pathSegs cleanSegs
      rw [isRooted_append_slash root _ hroot, isRooted_append_slash root _ hroot,
        splitSlash_append_slash, splitSlash_append_slash, List.foldl_append, List.foldl_append,
        foldl_split_Clean j hj, hsegs, List.foldl_append, foldl_cleanStep_push _ _ _ hpush]
      have := foldl_cleanStep_confined (isRooted root) (splitSlash d.data) []
        ((splitSlash root.data).foldl (cleanStep (isRooted root)) []) hP
      rw [List.nil_append] at this
      rw [this]
      simp [cleanStep_push _ _ _ k1 k2 k3]

/-! ## Resolving the path of a child -/

theorem nodeAt_snoc (k : String) (sz mt : Int) (es : List (String × Node)) (p : List String)
    (r : Node) (h : nodeAt r p = some (.dir sz mt es)) :
    nodeAt r (p ++ [k]) = es.lookup k := by
  induction p generalizing r with
  | nil =>
    simp only [nodeAt, Option.some.injEq] at h
    subst h
    simp only [List.nil_append, nodeAt]
    cases es.lookup k <;> rfl
  | cons s rest ih =>
    cases r with
    | file a b => simp [nodeAt] at h
    | symlink a b t => simp [nodeAt] at h
    | dir a b es2 =>
      simp only [nodeAt, List.cons_append] at h ⊢
      cases hl : es2.lookup s with
      | none => simp [hl] at h
      | some c =>
        simp only [hl] at h ⊢
        exact ih c h

theorem FS.walk_append (fs : FS) (a b : List Seg) (pos : List String) :
    fs.walk pos (a ++ b) =
      match fs.walk pos a with
      | .ok p => fs.walk p b
      | .error e => .error e := by
  induction a generalizing pos with
  | nil => rfl
  | cons x a ih =>
    simp only [List.cons_append, FS.walk]
    cases fs.step pos x with
    | error e => rfl
    | ok p => exact ih p

theorem FS.walk_skip_cons (fs : FS) (pos : List String) (x : Seg) (rest : List Seg) :
    fs.walk pos ([] :: x :: rest) = fs.walk pos (x :: rest) := by
  simp only [FS.walk, FS.step]
  cases hn : nodeAt fs.root pos with
  | none => rfl
  | some n =>
    cases n with
    | file a b => rfl
    | symlink a b t => rfl
    | dir a b es => simp [FS.walk, FS.step, hn]

theorem FS.walk_dot (fs : FS) (pos : List String) :
    fs.walk pos [['.']] = fs.walk pos [[]] := by
  simp [FS.walk, FS.step]

/-- Resolving a cleaned path is resolving the elements `filepath.Clean` kept,
after a look at the starting directory. -/
theorem FS.walk_split_Clean (fs : FS) (pos : List String) (path : String) (hne : path ≠ "") :
    fs.walk pos (splitSlash (Clean path).data) = fs.walk pos ([] :: pathSegs path) := by
  unfold Clean
  simp only [hne, if_false]
  by_cases hr : isRooted path = true
  · simp only [hr, if_true]
    cases hs : pathSegs path with
    | nil =>
      have : splitSlash ('/' :: joinSegs []) = [[], []] := by simp [splitSlash, joinSegs]
      rw [this, FS.walk_skip_cons]
    | cons x rest =>
      have := splitSlash_joinSegs (pathSegs path) (by simp [hs]) (pathSegs_noSlash path)
      rw [hs] at this
      simp [splitSlash, this]
  · simp only [hr, Bool.false_eq_true, if_false]
    cases hs : pathSegs path with
    | nil =>
      simp only [if_true]
      have : splitSlash (".".data) = [['.']] := rfl
      rw [this, FS.walk_dot]
    | cons x rest =>
      have := splitSlash_joinSegs (pathSegs path) (by simp [hs]) (pathSegs_noSlash path)
      rw [hs] at this
      simp only [reduceCtorEq, if_false, this]
      rw [FS.walk_skip_cons]

theorem FS.step_name (fs : FS) (pos : List String) (k : String) (n : Node) (sz mt : Int)
    (es : List (String × Node)) (hpos : nodeAt fs.root pos = some (.dir sz mt es))
    (hk : legalName k = true) (hl : es.lookup k = some n) (hsym : n.isSymlink = false) :
    fs.step pos k.data = .ok (pos ++ [k]) := by
  obtain ⟨k1, k2, k3, -⟩ := legalName_data k hk
  have hkk : (⟨k.data⟩ : String) = k := rfl
  unfold FS.step
  simp only [hpos, k1, k2, k3, or_self, if_false, hkk, hl]
  cases n with
  | file a b => rfl
  | dir a b es2 => rfl
  | symlink a b t => simp [Node.isSymlink] at hsym

theorem resolve_ok_iff (fs : FS) (name : String) (n : Node) :
    fs.resolve name = .ok n ↔
      name ≠ "" ∧ ∃ pos,
        fs.walk (if isRooted name then [] else fs.cwd) (splitSlash name.data) = .ok pos ∧
        nodeAt fs.root pos = some n := by
  unfold FS.resolve FS.namei
  by_cases hne : name = ""
  · simp [hne]
  · simp only [hne, if_false, ne_eq, not_false_eq_true, true_and]
    cases hw : fs.walk (if isRooted name then [] else fs.cwd) (splitSlash name.data) with
    | error e => simp
    | ok pos =>
      cases hn : nodeAt fs.root pos with
      | none => simp [hn]
      | some m => simp [hn]

/-! ## The base name of a cleaned path -/

theorem trimSlashes_name (k : List Char) (hk : '/' ∉ k) : trimSlashes k = k := by
  induction k with
  | nil => rfl
  | cons c cs ih =>
    have hc : c ≠ '/' := fun e => hk (by simp [e])
    have hcs : '/' ∉ cs := fun e => hk (List.mem_cons_of_mem _ e)
    simp only [trimSlashes, ih hcs]
    cases cs with
    | nil => simp [hc]
    | cons d t => rfl

theorem trimSlashes_append_name (a k : List Char) (hne : k ≠ []) (hk : '/' ∉ k) :
    trimSlashes (a ++ k) = a ++ k := by
  induction a with
  | nil => exact trimSlashes_name k hk
  | cons c a ih =>
    simp only [List.cons_append, trimSlashes, List.append_eq, ih]
    cases h : a ++ k with
    | nil => simp [hne] at h
    | cons d t => rfl

theorem joinSegs_snoc (segs : List Seg) (k : Seg) :
    joinSegs (segs ++ [k]) = if segs = [] then k else joinSegs segs ++ '/' :: k := by
  induction segs with
  | nil => rfl
  | cons x r ih =>
    cases r with
    | nil => simp [joinSegs]
    | cons y r2 =>
      simp only [List.cons_append, joinSegs, reduceCtorEq, if_false, List.append_eq] at ih ⊢
      rw [ih]
      simp

theorem basename_suffix (a k : List Char) (hne : k ≠ []) (hk : '/' ∉ k)
    (ha : a = [] ∨ ∃ a2, a = a2 ++ ['/']) : basename ⟨a ++ k⟩ = ⟨k⟩ := by
  have htrim : ∀ c cs, a ++ k = c :: cs → c :: trimSlashes cs = a ++ k := by
    intro c cs h
    cases a with
    | nil =>
      simp only [List.nil_append] at h ⊢
      subst h
      rw [trimSlashes_name cs (fun e => hk (List.mem_cons_of_mem _ e))]
    | cons c2 a2 =>
      simp only [List.cons_append, List.cons.injEq] at h ⊢
      obtain ⟨rfl, rfl⟩ := h
      exact ⟨rfl, trimSlashes_append_name a2 k hne hk⟩
  have hnot : a ++ k ≠ ['/'] := by
    intro e
    rcases ha with rfl | ⟨a2, rfl⟩
    · simp only [List.nil_append] at e
      exact hk (by simp [e])
    · have := congrArg List.length e
      simp at this
      have hpos : 0 < k.length := List.length_pos.2 hne
      omega
  have hlast : (splitSlash (a ++ k)).getLast? = some k := by
    rcases ha with rfl | ⟨a2, rfl⟩
    · simp [splitSlash_of_noSlash k hk]
    · have : a2 ++ ['/'] ++ k = a2 ++ '/' :: k := by simp
      rw [this, splitSlash_append, splitSlash_of_noSlash k hk]
      simp
  unfold basename
  cases h : a ++ k with
  | nil => simp [hne] at h
  | cons c cs =>
    simp only
    rw [htrim c cs h, if_neg hnot, hlast]
    rfl

theorem basename_Clean (s2 k : String) (segs : List Seg) (hs2 : s2 ≠ "")
    (hk : legalName k = true) (hp : pathSegs s2 = segs ++ [k.data]) :
    basename (Clean s2) = k := by
  obtain ⟨k1, -, -, k4⟩ := legalName_data k hk
  have hkk : (⟨k.data⟩ : String) = k := rfl
  have hnil : segs ++ [k.data] ≠ [] := by simp
  unfold Clean
  simp only [hs2, if_false, hp, hnil, joinSegs_snoc]
  by_cases hr : isRooted s2 = true
  · simp only [hr, if_true]
    by_cases hsg : segs = []
    · simp only [hsg, if_true]
      have := basename_suffix ['/'] k.data k1 k4 (Or.inr ⟨[], rfl⟩)
      simpa [hkk] using this
    · simp only [hsg, if_false]
      have := basename_suffix ('/' :: joinSegs segs ++ ['/']) k.data k1 k4
        (Or.inr ⟨'/' :: joinSegs segs, rfl⟩)
      simpa [hkk] using this
  · simp only [hr, Bool.false_eq_true, if_false]
    by_cases hsg : segs = []
    · simp only [hsg, if_true]
      have := basename_suffix [] k.data k1 k4 (Or.inl rfl)
      simpa [hkk] using this
    · simp only [hsg, if_false]
      have := basename_suffix (joinSegs segs ++ ['/']) k.data k1 k4 (Or.inr ⟨joinSegs segs, rfl⟩)
      simpa [hkk] using this

/-- Stat of a child that is not a symbolic link gives the `FileInfo` that
`ReadDir` of the folder has for it. -/
theorem osStat_child (fs : FS) (root d : String) (sz mt : Int) (es : List (String × Node))
    (k : String) (n : Node) (hc : confined d = true)
    (hw : fs.resolve (Join [root, d]) = .ok (.dir sz mt es))
    (hmem : (k, n) ∈ dirEntries es) (hsym : n.isSymlink = false) :
    osStat fs (Join [root, Join [d, k]]) = .ok (lstatInfo (k, n)) := by
  obtain ⟨hk, hl⟩ := mem_dirEntries es k n hmem
  obtain ⟨hne, pos, hwalk, hpos⟩ := (resolve_ok_iff fs _ _).1 hw
  obtain ⟨s, s2, hs, hs2, hF, hF2, hr, hp⟩ := child_fullPath root d k hk hc hne
  rw [hF, isRooted_Clean s hs, FS.walk_split_Clean fs _ s hs] at hwalk
  have hstep := FS.step_name fs pos k n sz mt es hpos hk hl hsym
  have hnode : nodeAt fs.root (pos ++ [k]) = some n := by
    rw [nodeAt_snoc k sz mt es pos fs.root hpos, hl]
  rw [hF2, osStat_ok_iff]
  refine ⟨n, ?_, ?_⟩
  · rw [resolve_ok_iff]
    refine ⟨Clean_ne_empty _, pos ++ [k], ?_, hnode⟩
    rw [isRooted_Clean s2 hs2, hr, FS.walk_split_Clean fs _ s2 hs2, hp]
    have : ([] : Seg) :: (pathSegs s ++ [k.data]) = ([] :: pathSegs s) ++ [k.data] := rfl
    rw [this, FS.walk_append, hwalk]
    simp [FS.walk, hstep]
  · simp [lstatInfo, basename_Clean s2 k (pathSegs s) hs2 hk hp]

/-! ## Stat against List -/

/-- C7, as stated, fails: the listing of `/data` has the entries `dead` and
`ln`, which are symbolic links.  `Native.File` fails on `dead`, whose target is
missing, and reports for `ln` the size and time of its target, not those the
listing has. -/
theorem Native.symlink_counterexample :
    Native.Files sampleEnv sampleFS "" sampleAccount = .ok sampleListing ∧
    ({ Name := "dead", Size := 4, Type_ := 0, UpdatedAt := some 7, Driver := "Native" }
      : Alist.File) ∈ sampleListing ∧
    Native.File sampleEnv sampleFS (Join ["", "dead"]) sampleAccount
      = .error .ErrPathNotFound ∧
    ({ Name := "ln", Size := 5, Type_ := 0, UpdatedAt := some 6, Driver := "Native" }
      : Alist.File) ∈ sampleListing ∧
    Native.File sampleEnv sampleFS (Join ["", "ln"]) sampleAccount
      = .ok { Name := "ln", Size := 10, Type_ := 0, UpdatedAt := some 3, Driver := "Native" } := by
  decide

/-- C7, amended: for every account and every folder path `d` whose `..`
elements never climb above its start, when `Native.Files(d)` succeeds (with a
`model.SortFiles` that only permutes), every File it returns comes from an
entry of the folder, and when that entry is not a symbolic link,
`Native.File(Join(d, name))` succeeds and returns the same File: the same name,
size, type, timestamp and driver name. -/
theorem Native.File_agrees_with_Files (env : Env) (fs : FS) (account : Account) (d : String)
    (files : List Alist.File) (hperm : ∀ l a, (env.SortFiles l a).Perm l)
    (hc : confined d = true) (h : Native.Files env fs d account = .ok files) :
    ∃ raw, ReadDir fs (Join [account.RootFolder, d]) = .ok raw ∧
      ∀ file ∈ files, ∃ r ∈ raw, file = Native.toFile env r ∧
        (r.Symlink = false →
          Native.File env fs (Join [d, file.Name]) account = .ok file) := by
  obtain ⟨raw, hr, rfl⟩ := (Native.Files_ok_iff env fs d account files).1 h
  refine ⟨raw, hr, ?_⟩
  obtain ⟨sz, mt, es, hw, rfl⟩ := (ReadDir_ok_iff fs _ raw).1 hr
  intro file hmem
  rw [(hperm _ _).mem_iff, List.mem_map] at hmem
  obtain ⟨r, hrmem, rfl⟩ := hmem
  have hrraw := (List.mem_filter.1 hrmem).1
  refine ⟨r, hrraw, rfl, ?_⟩
  intro hsym
  obtain ⟨⟨k, n⟩, hkn, rfl⟩ := List.mem_map.1 hrraw
  have hstat := osStat_child fs account.RootFolder d sz mt es k n hc hw hkn
    (by simpa [lstatInfo] using hsym)
  exact Native.File_of_stat env fs _ account _ hstat

/-- On the sample tree: every File of the listing of `/data` comes from an
entry of the folder and, unless the entry is a symbolic link, is the File that
`Native.File` returns for it. -/
theorem Native.File_agrees_with_Files_witness :
    ∃ raw, ReadDir sampleFS (Join [sampleAccount.RootFolder, ""]) = .ok raw ∧
      ∀ file ∈ sampleListing, ∃ r ∈ raw, file = Native.toFile sampleEnv r ∧
        (r.Symlink = false →
          Native.File sampleEnv sampleFS (Join ["", file.Name]) sampleAccount = .ok file) :=
  Native.File_agrees_with_Files sampleEnv sampleFS sampleAccount "" sampleListing
    sampleEnv_SortFiles_perm (by decide) (by decide)

end Alist
